import Mathlib

/-!
Verification of the hierarchy-flattening processor of the common-core-mcp
repository (src/tools/pinecone_processor.py, src/tools/pinecone_models.py,
src/tools/models.py) against its natural-language specification.

The Python dictionaries keyed by standard id (insertion ordered) are embedded
as association lists `List (String × Standard)`; Python `int` as `Int`;
`None`-able values as `Option`; fallible parsing as `Except String`.
-/

namespace CCMCP

/-- Node of a standard-set tree, translated from the `Standard` pydantic model
in src/tools/models.py (the fields the processor reads). The source field
`statementNotation` is embedded as `statementNotationVal` and
`statementLabel` as `statementLabelVal` (pure renamings). -/
structure Standard where
  id : String
  asnIdentifier : Option String := none
  position : Int
  depth : Int
  statementNotationVal : Option String := none
  description : String
  parentId : Option String := none
  statementLabelVal : Option String := none
deriving Repr, DecidableEq, Inhabited

/-- The `standards` dict of a `StandardSet`: insertion-ordered map from id to
`Standard` (Python dicts preserve insertion order). -/
abbrev StdMap := List (String × Standard)

/-- Python dict lookup `id_to_standard[k]` / `k in id_to_standard`
(first-match on the association list; keys are unique in a dict). -/
def lookupStd (m : StdMap) (k : String) : Option Standard :=
  match m with
  | [] => none
  | (k', s) :: rest => if k' = k then some s else lookupStd rest k

/-- Truthiness of an optional string in Python (`if std_dict.get("x"):`):
`None` and the empty string are falsy. -/
def truthy (o : Option String) : Option String :=
  match o with
  | none => none
  | some s => if s = "" then none else some s

/-- StandardSetProcessor.find_root_id, fuel-indexed. The Python `while` loop
walks `parentId` upward, guarded by a `visited` set; each non-terminal
iteration adds a fresh key of the map to `visited`, so `m.length + 1` fuel is
always enough (proved below). -/
def findRootAux (m : StdMap) : Nat → Standard → List String → String
  | 0, cur, _ => cur.id
  | fuel + 1, cur, visited =>
    match cur.parentId with
    | none => cur.id
    | some pid =>
      if pid ∈ visited then cur.id
      else
        match lookupStd m pid with
        | none => cur.id
        | some par => findRootAux m fuel par (pid :: visited)

/-- StandardSetProcessor.find_root_id. -/
def findRoot (m : StdMap) (std : Standard) : String :=
  findRootAux m (m.length + 1) std []

/-- Loop body of StandardSetProcessor.build_ordered_ancestors, fuel-indexed;
returns the ancestors in walk order (immediate parent first). When the walked
id is missing from the map the Python loop breaks without appending it. -/
def buildAncestorsAux (m : StdMap) : Nat → Option String → List String → List String
  | 0, _, _ => []
  | fuel + 1, curId, visited =>
    match curId with
    | none => []
    | some cid =>
      if cid ∈ visited then []
      else
        match lookupStd m cid with
        | none => []
        | some s => cid :: buildAncestorsAux m fuel s.parentId (cid :: visited)

/-- StandardSetProcessor.build_ordered_ancestors: walk up then reverse, so
index 0 is the outermost ancestor and the last entry the immediate parent. -/
def buildOrderedAncestors (m : StdMap) (std : Standard) : List String :=
  (buildAncestorsAux m (m.length + 1) std.parentId []).reverse

/-- Number of map keys not yet in the visited set: the quantity the guarded
walks strictly decrease at every non-terminal step. -/
def countFresh (l : List String) (visited : List String) : Nat :=
  (l.filter (fun k => decide (k ∉ visited))).length

/-- Keys of the map (`standards.keys()`). -/
def keyList (m : StdMap) : List String := m.map Prod.fst

theorem countFresh_nil (l : List String) : countFresh l [] = l.length := by
  simp [countFresh]

theorem filterFresh_sublist (l : List String) (x : String) (visited : List String) :
    List.Sublist (l.filter (fun k => decide (k ∉ x :: visited)))
      (l.filter (fun k => decide (k ∉ visited))) := by
  apply List.monotone_filter_right
  intro a ha
  simp only [decide_eq_true_eq] at ha ⊢
  exact fun h => ha (List.mem_cons_of_mem _ h)

theorem countFresh_cons_le (l : List String) (x : String) (visited : List String) :
    countFresh l (x :: visited) ≤ countFresh l visited :=
  (filterFresh_sublist l x visited).length_le

theorem countFresh_append (l₁ l₂ visited : List String) :
    countFresh (l₁ ++ l₂) visited = countFresh l₁ visited + countFresh l₂ visited := by
  simp [countFresh, List.filter_append]

theorem countFresh_cons_lt (l : List String) (x : String) (visited : List String)
    (hx : x ∈ l) (hnx : x ∉ visited) :
    countFresh l (x :: visited) < countFresh l visited := by
  obtain ⟨l₁, l₂, rfl⟩ := List.append_of_mem hx
  have h1 := countFresh_cons_le l₁ x visited
  have h2 := countFresh_cons_le l₂ x visited
  have e1 : countFresh (x :: l₂) (x :: visited) = countFresh l₂ (x :: visited) := by
    simp [countFresh, List.filter_cons]
  have e2 : countFresh (x :: l₂) visited = countFresh l₂ visited + 1 := by
    simp [countFresh, List.filter_cons, hnx]
  rw [countFresh_append, countFresh_append, e1, e2]
  omega

theorem lookupStd_mem_keys (m : StdMap) (k : String) (s : Standard)
    (h : lookupStd m k = some s) : k ∈ keyList m := by
  induction m with
  | nil => simp [lookupStd] at h
  | cons e rest ih =>
      simp only [lookupStd] at h
      by_cases hk : e.1 = k
      · simp [keyList, hk]
      · rw [if_neg hk] at h
        exact List.mem_cons_of_mem _ (ih h)

theorem findRootAux_congr (m : StdMap) :
    ∀ (fuel fuel' : Nat) (cur : Standard) (visited : List String),
      countFresh (keyList m) visited < fuel →
      countFresh (keyList m) visited < fuel' →
      findRootAux m fuel cur visited = findRootAux m fuel' cur visited := by
  intro fuel
  induction fuel with
  | zero => intro fuel' cur visited h _; omega
  | succ f ih =>
      intro fuel' cur visited h h'
      cases fuel' with
      | zero => omega
      | succ f' =>
          cases hp : cur.parentId with
          | none => simp [findRootAux, hp]
          | some pid =>
              by_cases hv : pid ∈ visited
              · simp [findRootAux, hp, hv]
              · cases hl : lookupStd m pid with
                | none => simp [findRootAux, hp, hv, hl]
                | some par =>
                    have hkey : pid ∈ keyList m := lookupStd_mem_keys m pid par hl
                    have hlt := countFresh_cons_lt (keyList m) pid visited hkey hv
                    simp only [findRootAux, hp, hv, hl, if_neg hv]
                    exact ih f' par (pid :: visited) (by omega) (by omega)

theorem buildAncestorsAux_congr (m : StdMap) :
    ∀ (fuel fuel' : Nat) (curId : Option String) (visited : List String),
      countFresh (keyList m) visited < fuel →
      countFresh (keyList m) visited < fuel' →
      buildAncestorsAux m fuel curId visited = buildAncestorsAux m fuel' curId visited := by
  intro fuel
  induction fuel with
  | zero => intro fuel' curId visited h _; omega
  | succ f ih =>
      intro fuel' curId visited h h'
      cases fuel' with
      | zero => omega
      | succ f' =>
          cases curId with
          | none => simp [buildAncestorsAux]
          | some cid =>
              by_cases hv : cid ∈ visited
              · simp [buildAncestorsAux, hv]
              · cases hl : lookupStd m cid with
                | none => simp [buildAncestorsAux, hv, hl]
                | some s =>
                    have hkey : cid ∈ keyList m := lookupStd_mem_keys m cid s hl
                    have hlt := countFresh_cons_lt (keyList m) cid visited hkey hv
                    simp only [buildAncestorsAux, hl, if_neg hv]
                    exact congrArg (List.cons cid)
                      (ih f' s.parentId (cid :: visited) (by omega) (by omega))

/-- Comparison used by `sorted(children, key=lambda x: x[0])` on the
`(position, std_id)` pairs: compare the position component. Python `sorted`
is a stable sort by this key, and so is `List.insertionSort` with a
non-strict total preorder, so the two produce identical output. -/
def posLe (a b : Int × String) : Prop := a.1 ≤ b.1

instance : DecidableRel posLe := fun a b => inferInstanceAs (Decidable (a.1 ≤ b.1))

instance : IsTotal (Int × String) posLe := ⟨fun a b => Int.le_total a.1 b.1⟩

instance : IsTrans (Int × String) posLe := ⟨fun _ _ _ h1 h2 => le_trans h1 h2⟩

/-- The `(position, std_id)` pairs accumulated for one parent key by
StandardSetProcessor._build_parent_to_children_map, in map iteration order. -/
def childrenPairs (m : StdMap) (p : Option String) : List (Int × String) :=
  (m.filter (fun e => decide (e.2.parentId = p))).map (fun e => (e.2.position, e.1))

/-- One group of StandardSetProcessor._build_parent_to_children_map: children
of `p` sorted by ascending position (stable), ids extracted. A parent id
absent from the map yields `[]`, exactly like `parent_to_children.get(id, [])`. -/
def childrenOf (m : StdMap) (p : Option String) : List String :=
  (List.insertionSort posLe (childrenPairs m p)).map Prod.snd

/-- Set of all non-null `parentId` values
(`{std.get("parentId") for std in standards.values() if ... is not None}`). -/
def parentIdList (m : StdMap) : List String :=
  m.filterMap (fun e => e.2.parentId)

/-- Membership in StandardSetProcessor._identify_leaf_nodes' result:
`all_ids - parent_ids`. -/
def isLeaf (m : StdMap) (k : String) : Bool :=
  decide (k ∈ keyList m) && decide (k ∉ parentIdList m)

/-- StandardSetProcessor._identify_root_nodes: ids whose `parentId` is null. -/
def rootNodeIds (m : StdMap) : List String :=
  (m.filter (fun e => decide (e.2.parentId = none))).map Prod.fst

/-- StandardSetProcessor._compute_sibling_count: entries of the node's
parent group other than the node itself. -/
def siblingCount (m : StdMap) (std : Standard) : Int :=
  ((childrenOf m std.parentId).filter (fun s => decide (s ≠ std.id))).length

/-- Position of the node stored under key `k` (0 if the key is absent); used
to state ordering facts about id lists. -/
def posOf (m : StdMap) (k : String) : Int :=
  match lookupStd m k with
  | some s => s.position
  | none => 0

/-- One line of the content block: `Depth N: description`, or
`Depth N (code): description` when the notation code is truthy. -/
def fmtLine (depth : Int) (notat : Option String) (desc : String) : String :=
  match truthy notat with
  | some nv => "Depth " ++ toString depth ++ " (" ++ nv ++ "): " ++ desc
  | none => "Depth " ++ toString depth ++ ": " ++ desc

/-- StandardSetProcessor._build_content_text: one line per ordered ancestor,
then the node itself, joined by newlines. The Python code indexes
`id_to_standard[ancestor_id]` directly; every id produced by
`build_ordered_ancestors` is a key of the map, so the `none` fallback below is
unreachable. -/
def buildContentText (m : StdMap) (std : Standard) : String :=
  let ancestorIds := buildOrderedAncestors m std
  let lines := ancestorIds.map (fun aid =>
    match lookupStd m aid with
    | some a => fmtLine a.depth a.statementNotationVal a.description
    | none => "")
  String.intercalate "\n" (lines ++ [fmtLine std.depth std.statementNotationVal std.description])

/-- Python `item.split(",")` over the character list: cut at every comma,
never merging adjacent separators (`"".split(",") == [""]`). -/
def splitCommaChars (cs : List Char) (cur : List Char) : List (List Char) :=
  match cs with
  | [] => [cur.reverse]
  | c :: rest =>
    if c = ',' then cur.reverse :: splitCommaChars rest []
    else splitCommaChars rest (c :: cur)

/-- Python `item.split(",")`. -/
def pySplitComma (s : String) : List String :=
  (splitCommaChars s.data []).map (fun cs => String.mk cs)

/-- Drop leading whitespace characters. -/
def dropLeadingWs (cs : List Char) : List Char :=
  match cs with
  | [] => []
  | c :: rest => if c.isWhitespace then dropLeadingWs rest else c :: rest

/-- Python `s.strip()`: remove leading and trailing whitespace. -/
def pyStrip (s : String) : String :=
  String.mk ((dropLeadingWs (dropLeadingWs s.data).reverse).reverse)

/-- Splitting step of PineconeRecord.process_education_levels:
`[s.strip() for s in item.split(",") if s.strip()]`. -/
def splitTrimNonEmpty (item : String) : List String :=
  ((pySplitComma item).map pyStrip).filter (fun s => decide (s ≠ ""))

/-- Order-preserving deduplication (`seen` set plus `result` list). -/
def dedupKeepFirst (l : List String) (seen : List String) : List String :=
  match l with
  | [] => []
  | x :: xs => if x ∈ seen then dedupKeepFirst xs seen else x :: dedupKeepFirst xs (x :: seen)

/-- PineconeRecord.process_education_levels on a list of strings: split each
element on commas, trim, drop empties, flatten, deduplicate keeping the
first occurrence. -/
def processEducationLevels (v : List String) : List String :=
  dedupKeepFirst ((v.map splitTrimNonEmpty).flatten) []

/-- Per-tree shared metadata of a StandardSet (src/tools/models.py) that
_transform_standard copies into every record. The processor reads
`document.id` and `document.valid` unconditionally, so they are embedded as
required strings here. -/
structure SetMeta where
  id : String
  title : String
  subject : String
  normalizedSubject : Option String := none
  educationLevels : List String
  documentId : String
  documentValid : String
  publicationStatus : Option String := none
  jurisdictionId : String
  jurisdictionTitle : String
deriving Repr, DecidableEq

/-- PineconeRecord from src/tools/pinecone_models.py, fields in pydantic
declaration order. The source fields `statement_notation` and
`statement_label` are embedded as `statement_notation_val` and
`statement_label_val` (pure renamings); the JSON key strings below keep the
exact source spelling. -/
structure PineconeRecord where
  id : String
  content : String
  standard_set_id : String
  standard_set_title : String
  subject : String
  normalized_subject : Option String := none
  education_levels : List String
  document_id : String
  document_valid : String
  publication_status : Option String := none
  jurisdiction_id : String
  jurisdiction_title : String
  asn_identifier : Option String := none
  statement_notation_val : Option String := none
  statement_label_val : Option String := none
  depth : Int
  is_leaf : Bool
  is_root : Bool
  parent_id : Option String := none
  root_id : String
  ancestor_ids : List String
  child_ids : List String
  sibling_count : Int
deriving Repr, DecidableEq

/-- StandardSetProcessor._transform_standard: relationship facts plus shared
metadata assembled into one flat record. The three `asnIdentifier` /
`statementNotation` / `statementLabel` keys are added to `record_data` only
when truthy, and the pydantic model defaults them to `None` otherwise, which
is exactly `truthy`. `education_levels` passes through the
process_education_levels validator on model construction. -/
def transformStandard (meta : SetMeta) (m : StdMap) (std : Standard) : PineconeRecord :=
  let isRootN := std.parentId.isNone
  { id := std.id
    content := buildContentText m std
    standard_set_id := meta.id
    standard_set_title := meta.title
    subject := meta.subject
    normalized_subject := meta.normalizedSubject
    education_levels := processEducationLevels meta.educationLevels
    document_id := meta.documentId
    document_valid := meta.documentValid
    publication_status := meta.publicationStatus
    jurisdiction_id := meta.jurisdictionId
    jurisdiction_title := meta.jurisdictionTitle
    asn_identifier := truthy std.asnIdentifier
    statement_notation_val := truthy std.statementNotationVal
    statement_label_val := truthy std.statementLabelVal
    depth := std.depth
    is_leaf := isLeaf m std.id
    is_root := isRootN
    parent_id := std.parentId
    root_id := if isRootN then std.id else findRoot m std
    ancestor_ids := buildOrderedAncestors m std
    child_ids := childrenOf m (some std.id)
    sibling_count := siblingCount m std }

/-- StandardSetProcessor.process_standard_set: transform every node of the
tree in map iteration order, sharing one set of relationship maps. -/
def processStandardSet (meta : SetMeta) (stds : StdMap) : List PineconeRecord :=
  stds.map (fun e => transformStandard meta stds e.2)

/-- JSON values as written by `json.dump`. -/
inductive Json where
  | null
  | str (s : String)
  | num (n : Int)
  | bool (b : Bool)
  | arr (elems : List Json)
deriving Repr

/-- Optional string as serialized by pydantic `model_dump(mode="json")`:
`None` becomes JSON null (the field stays present). -/
def optJson (o : Option String) : Json :=
  match o with
  | none => Json.null
  | some s => Json.str s

/-- One record object of processed.json, as produced by
`processed_set.model_dump(mode="json")` in process_and_save. pydantic
`model_dump` defaults apply there: `by_alias=False`, so the identifier field
is emitted under its field name `id` (the `_id` serialization alias is used
only by dumps passing `by_alias=True`, which process_and_save does not), and
`exclude_none=False`, so `None`-valued optional fields are emitted as null
rather than omitted. Keys appear in pydantic field declaration order. -/
def modelDumpJson (r : PineconeRecord) : List (String × Json) :=
  [("id", Json.str r.id),
   ("content", Json.str r.content),
   ("standard_set_id", Json.str r.standard_set_id),
   ("standard_set_title", Json.str r.standard_set_title),
   ("subject", Json.str r.subject),
   ("normalized_subject", optJson r.normalized_subject),
   ("education_levels", Json.arr (r.education_levels.map Json.str)),
   ("document_id", Json.str r.document_id),
   ("document_valid", Json.str r.document_valid),
   ("publication_status", optJson r.publication_status),
   ("jurisdiction_id", Json.str r.jurisdiction_id),
   ("jurisdiction_title", Json.str r.jurisdiction_title),
   ("asn_identifier", optJson r.asn_identifier),
   ("statement_notation", optJson r.statement_notation_val),
   ("statement_label", optJson r.statement_label_val),
   ("depth", Json.num r.depth),
   ("is_leaf", Json.bool r.is_leaf),
   ("is_root", Json.bool r.is_root),
   ("parent_id", optJson r.parent_id),
   ("root_id", Json.str r.root_id),
   ("ancestor_ids", Json.arr (r.ancestor_ids.map Json.str)),
   ("child_ids", Json.arr (r.child_ids.map Json.str)),
   ("sibling_count", Json.num r.sibling_count)]

/-- Key lookup in a serialized record object. -/
def jsonGet (d : List (String × Json)) (k : String) : Option Json :=
  (d.find? (fun e => e.1 == k)).map Prod.snd

/-- The `records` array of processed.json. -/
def dumpRecords (rs : List PineconeRecord) : List (List (String × Json)) :=
  rs.map modelDumpJson

/-- Raw node as it sits in data.json before pydantic validation: every field
may be absent. Only the fields relevant to the `Standard` model are kept. -/
structure RawStandard where
  id : Option String := none
  position : Option Int := none
  depth : Option Int := none
  description : Option String := none
  asnIdentifier : Option String := none
  statementNotationVal : Option String := none
  statementLabelVal : Option String := none
  parentId : Option String := none
deriving Repr, DecidableEq

/-- Pydantic validation of one `Standard` (required scalar fields id,
position, depth, description), as triggered by
`StandardSetResponse(**raw_data)` in process_and_save. A missing required
field fails with an error locating the offending node by its key, mirroring
pydantic's `data.standards.<key>.<field>  Field required` report (pydantic
collects every missing field; this embedding reports the first, which is
enough to name the node). -/
def parseStandard (key : String) (r : RawStandard) : Except String Standard :=
  match r.id with
  | none => Except.error ("standards." ++ key ++ ".id: Field required")
  | some i =>
    match r.position with
    | none => Except.error ("standards." ++ key ++ ".position: Field required")
    | some pos =>
      match r.depth with
      | none => Except.error ("standards." ++ key ++ ".depth: Field required")
      | some d =>
        match r.description with
        | none => Except.error ("standards." ++ key ++ ".description: Field required")
        | some desc =>
          Except.ok
            { id := i, asnIdentifier := r.asnIdentifier, position := pos, depth := d,
              statementNotationVal := r.statementNotationVal, description := desc,
              parentId := r.parentId, statementLabelVal := r.statementLabelVal }

/-- Validation of the whole `standards` dict: the first invalid node makes
the whole parse fail (no per-node recovery). -/
def parseStandards (raw : List (String × RawStandard)) : Except String StdMap :=
  match raw with
  | [] => Except.ok []
  | (k, r) :: rest =>
    match parseStandard k r with
    | Except.error e => Except.error e
    | Except.ok s =>
      match parseStandards rest with
      | Except.error e => Except.error e
      | Except.ok ss => Except.ok ((k, s) :: ss)

/-- Success test for an `Except` result. -/
def isOkE (x : Except String (List PineconeRecord)) : Bool :=
  match x with
  | Except.ok _ => true
  | Except.error _ => false

/-- Success test for a single node parse. -/
def isOkStd (x : Except String Standard) : Bool :=
  match x with
  | Except.ok _ => true
  | Except.error _ => false

/-- Load-and-process pipeline of process_and_save: parse the raw standards
into models (wrapping any validation error exactly as the source does), then
run the batch orchestrator over the parsed tree. There is no per-node error
recovery anywhere on this path: a single malformed node fails the whole
document before any node is transformed. -/
def processPipeline (meta : SetMeta) (raw : List (String × RawStandard)) :
    Except String (List PineconeRecord) :=
  match parseStandards raw with
  | Except.error e => Except.error ("Failed to parse standard set data: " ++ e)
  | Except.ok stds => Except.ok (processStandardSet meta stds)

/-- Root node of the spec's three-node chain scenario. -/
def stdR : Standard :=
  { id := "R", position := 1, depth := 0, description := "Math" }

/-- Middle node of the three-node chain (notation 1.1). -/
def stdC1 : Standard :=
  { id := "C1", position := 1, depth := 1, statementNotationVal := some "1.1",
    description := "Numbers", parentId := some "R" }

/-- Leaf node of the three-node chain (notation 1.1.A). -/
def stdC2 : Standard :=
  { id := "C2", position := 1, depth := 2, statementNotationVal := some "1.1.A",
    description := "Count to 10", parentId := some "C1" }

/-- The three-node chain tree. -/
def chain3 : StdMap := [("R", stdR), ("C1", stdC1), ("C2", stdC2)]

/-- Node A of a two-node parentId cycle. -/
def stdA : Standard :=
  { id := "A", position := 1, depth := 1, description := "node a", parentId := some "B" }

/-- Node B of a two-node parentId cycle. -/
def stdB : Standard :=
  { id := "B", position := 2, depth := 2, description := "node b", parentId := some "A" }

/-- A tree whose parentId references form a two-cycle. -/
def cycleAB : StdMap := [("A", stdA), ("B", stdB)]

/-- A node that names itself as its parent. -/
def stdSelf : Standard :=
  { id := "S", position := 1, depth := 0, description := "self", parentId := some "S" }

/-- One-node tree with a self-referential parentId. -/
def selfTree : StdMap := [("S", stdSelf)]

/-- A node whose parentId dangles to a missing id. -/
def stdDangling : Standard :=
  { id := "D", position := 1, depth := 3, description := "dangling", parentId := some "X" }

/-- One-node tree with a dangling parent reference. -/
def danglingTree : StdMap := [("D", stdDangling)]

/-- Parent for the sibling-ordering scenario. -/
def stdP : Standard :=
  { id := "P", position := 1, depth := 0, description := "parent" }

/-- Child at position 300 (listed first in the map). -/
def stdX3 : Standard :=
  { id := "X3", position := 300, depth := 1, description := "third", parentId := some "P" }

/-- Child at position 100. -/
def stdX1 : Standard :=
  { id := "X1", position := 100, depth := 1, description := "first", parentId := some "P" }

/-- Child at position 200. -/
def stdX2 : Standard :=
  { id := "X2", position := 200, depth := 1, description := "second", parentId := some "P" }

/-- Tree whose children appear in the map at positions [300, 100, 200]. -/
def posTree : StdMap := [("P", stdP), ("X3", stdX3), ("X1", stdX1), ("X2", stdX2)]

/-- Shared metadata fixture. -/
def meta1 : SetMeta :=
  { id := "SET1", title := "Grade 1 Math", subject := "Math", educationLevels := ["01"],
    documentId := "DOC1", documentValid := "2021", jurisdictionId := "JUR1",
    jurisdictionTitle := "Wyoming" }

/-- A raw node with all required scalar fields present. -/
def rawGoodA : RawStandard :=
  { id := some "A", position := some 1, depth := some 0, description := some "ok" }

/-- A raw node missing the required scalar field `position`. -/
def rawBadB : RawStandard :=
  { id := some "B", depth := some 1, description := some "bad" }

theorem dedupKeepFirst_spec (l : List String) :
    ∀ seen : List String,
      (dedupKeepFirst l seen).Nodup ∧ ∀ x ∈ dedupKeepFirst l seen, x ∉ seen := by
  induction l with
  | nil => intro seen; simp [dedupKeepFirst]
  | cons a l ih =>
      intro seen
      by_cases ha : a ∈ seen
      · simp only [dedupKeepFirst, if_pos ha]
        exact ih seen
      · simp only [dedupKeepFirst, if_neg ha]
        refine ⟨List.nodup_cons.mpr ⟨?_, (ih (a :: seen)).1⟩, ?_⟩
        · intro hmem
          exact (ih (a :: seen)).2 a hmem (List.mem_cons_self a seen)
        · intro x hx
          rcases List.mem_cons.mp hx with hxa | hxl
          · rw [hxa]; exact ha
          · exact fun hseen =>
              (ih (a :: seen)).2 x hxl (List.mem_cons_of_mem a hseen)

theorem dedupKeepFirst_subset (l : List String) :
    ∀ (seen : List String) (x : String), x ∈ dedupKeepFirst l seen → x ∈ l := by
  induction l with
  | nil => intro seen x hx; simp [dedupKeepFirst] at hx
  | cons a l ih =>
      intro seen x hx
      by_cases ha : a ∈ seen
      · simp only [dedupKeepFirst, if_pos ha] at hx
        exact List.mem_cons_of_mem a (ih seen x hx)
      · simp only [dedupKeepFirst, if_neg ha] at hx
        rcases List.mem_cons.mp hx with hxa | hxl
        · rw [hxa]; exact List.mem_cons_self a l
        · exact List.mem_cons_of_mem a (ih (a :: seen) x hxl)

/-- C9: education-levels normalization splits elements on commas, trims
whitespace, drops empties and deduplicates preserving first-seen order; on
the scenario input ["01,02", "02", "03"] it yields ["01", "02", "03"]; in
general the output has no duplicates and no empty strings. -/
theorem claim9_education_levels :
    processEducationLevels ["01,02", "02", "03"] = ["01", "02", "03"]
    ∧ (∀ v : List String, (processEducationLevels v).Nodup)
    ∧ (∀ v : List String,
        (processEducationLevels v).all (fun s => !(s == "")) = true) := by
  refine ⟨by decide, ?_, ?_⟩
  · intro v
    exact (dedupKeepFirst_spec ((v.map splitTrimNonEmpty).flatten) []).1
  · intro v
    rw [List.all_eq_true]
    intro x hx
    have hx' : x ∈ (v.map splitTrimNonEmpty).flatten :=
      dedupKeepFirst_subset ((v.map splitTrimNonEmpty).flatten) [] x hx
    obtain ⟨l0, hl0, hxl0⟩ := List.mem_flatten.mp hx'
    obtain ⟨item, _, rfl⟩ := List.mem_map.mp hl0
    have := (List.mem_filter.mp hxl0).2
    simpa using this

/-- C6: the synthesized content text is the newline-joined top-down list of
"Depth d: description" / "Depth d (code): description" lines for the ancestor
chain plus the node; verified exactly on the three-node chain scenario. -/
theorem claim6_content_text :
    buildContentText chain3 stdR = "Depth 0: Math"
    ∧ buildContentText chain3 stdC1 = "Depth 0: Math\nDepth 1 (1.1): Numbers"
    ∧ buildContentText chain3 stdC2 =
        "Depth 0: Math\nDepth 1 (1.1): Numbers\nDepth 2 (1.1.A): Count to 10" :=
  ⟨rfl, rfl, rfl⟩

/-- C10: on the two-node parentId cycle A -> B -> A, the recomputed ancestor
list of A is ["A", "B"]: it contains A itself, so under cyclic data the
computed ancestors are not self-excluding. -/
theorem claim10_cycle_ancestors_contain_self :
    buildOrderedAncestors cycleAB stdA = ["A", "B"]
    ∧ stdA.id ∈ buildOrderedAncestors cycleAB stdA :=
  ⟨by decide, by decide⟩

/-- C8 counterexample: a record of the persisted processed.json document
carries its identifier under the key "id", not "_id" — refuting the claim
that every record uses the key "_id". -/
theorem claim8_counterexample :
    "_id" ∉ (modelDumpJson (transformStandard meta1 chain3 stdR)).map Prod.fst
    ∧ "id" ∈ (modelDumpJson (transformStandard meta1 chain3 stdR)).map Prod.fst :=
  ⟨by decide, by decide⟩

/-- C8 amended: every record object of processed.json has exactly these 23
keys in pydantic field order — the identifier under "id" (model_dump is
called without by_alias, so the "_id" serialization alias is not applied)
and every optional field key present even when its value is null. -/
theorem claim8_amended (r : PineconeRecord) :
    (modelDumpJson r).map Prod.fst =
      ["id", "content", "standard_set_id", "standard_set_title", "subject",
       "normalized_subject", "education_levels", "document_id", "document_valid",
       "publication_status", "jurisdiction_id", "jurisdiction_title",
       "asn_identifier", "statement_notation", "statement_label", "depth",
       "is_leaf", "is_root", "parent_id", "root_id", "ancestor_ids",
       "child_ids", "sibling_count"] := rfl

/-- C1 counterexample: a record produced by the pipeline for a node with no
notation/label (and a set with no normalized subject) serializes those keys
present with a null value — refuting the claim that such keys are omitted
from the record object entirely. -/
theorem claim1_counterexample :
    jsonGet (modelDumpJson (transformStandard meta1 chain3 stdR)) "statement_notation"
      = some Json.null
    ∧ jsonGet (modelDumpJson (transformStandard meta1 chain3 stdR)) "statement_label"
      = some Json.null
    ∧ jsonGet (modelDumpJson (transformStandard meta1 chain3 stdR)) "normalized_subject"
      = some Json.null :=
  ⟨rfl, rfl, rfl⟩

/-- C1 amended: in processed.json the optional keys are always present:
empty or absent source values serialize as an explicit null (model_dump is
called without exclude_none), while parent_id is null exactly for root nodes
and carries the parent's id otherwise. -/
theorem claim1_amended (meta : SetMeta) (m : StdMap) (std : Standard) :
    jsonGet (modelDumpJson (transformStandard meta m std)) "statement_notation"
      = some (optJson (truthy std.statementNotationVal))
    ∧ jsonGet (modelDumpJson (transformStandard meta m std)) "statement_label"
      = some (optJson (truthy std.statementLabelVal))
    ∧ jsonGet (modelDumpJson (transformStandard meta m std)) "asn_identifier"
      = some (optJson (truthy std.asnIdentifier))
    ∧ jsonGet (modelDumpJson (transformStandard meta m std)) "normalized_subject"
      = some (optJson meta.normalizedSubject)
    ∧ jsonGet (modelDumpJson (transformStandard meta m std)) "publication_status"
      = some (optJson meta.publicationStatus)
    ∧ jsonGet (modelDumpJson (transformStandard meta m std)) "parent_id"
      = some (optJson std.parentId) :=
  ⟨rfl, rfl, rfl, rfl, rfl, rfl⟩

theorem parseStandards_error_of_mem (raw : List (String × RawStandard))
    (k : String) (r : RawStandard) (hmem : (k, r) ∈ raw)
    (hbad : isOkStd (parseStandard k r) = false) :
    ∃ e, parseStandards raw = Except.error e := by
  induction raw with
  | nil => cases hmem
  | cons hd tl ih =>
      obtain ⟨k', r'⟩ := hd
      rcases List.mem_cons.mp hmem with heq | htl
      · obtain ⟨rfl, rfl⟩ := Prod.mk.injEq .. ▸ (Prod.ext_iff.mp heq)
        cases hp : parseStandard k r with
        | error e => exact ⟨e, by simp [parseStandards, hp]⟩
        | ok s => rw [hp] at hbad; simp [isOkStd] at hbad
      · obtain ⟨e, he⟩ := ih htl
        cases hp : parseStandard k' r' with
        | error e' => exact ⟨e', by simp [parseStandards, hp]⟩
        | ok s => exact ⟨e, by simp [parseStandards, hp, he]⟩

/-- C2 counterexample: with a well-formed node A and a node B missing the
required scalar field `position`, the whole load fails with a single
validation error before any node is transformed — no record is produced for
the remaining well-formed node and no partial-failure summary exists,
refuting the claim that the batch orchestrator still attempts the remaining
nodes. -/
theorem claim2_counterexample :
    processPipeline meta1 [("A", rawGoodA), ("B", rawBadB)] =
      Except.error "Failed to parse standard set data: standards.B.position: Field required"
    ∧ isOkE (processPipeline meta1 [("A", rawGoodA), ("B", rawBadB)]) = false :=
  ⟨rfl, rfl⟩

/-- C2 amended: a node missing a required scalar field makes the entire load
fail with a validation error naming the offending node, before any node of
the tree is transformed; no remaining node is attempted, no partial-failure
summary is produced, and there is no fail-fast opt-in because the abort is
unconditional. -/
theorem claim2_amended (meta : SetMeta) (raw : List (String × RawStandard))
    (k : String) (r : RawStandard) (hmem : (k, r) ∈ raw)
    (hbad : isOkStd (parseStandard k r) = false) :
    isOkE (processPipeline meta raw) = false := by
  obtain ⟨e, he⟩ := parseStandards_error_of_mem raw k r hmem hbad
  simp [processPipeline, he, isOkE]

/-- C2 witness: the amended theorem applied to the concrete two-node input
with B missing `position`. -/
theorem claim2_witness :
    (("B", rawBadB) ∈ [("A", rawGoodA), ("B", rawBadB)]
      ∧ isOkStd (parseStandard "B" rawBadB) = false)
    ∧ isOkE (processPipeline meta1 [("A", rawGoodA), ("B", rawBadB)]) = false :=
  ⟨⟨by decide, by decide⟩,
   claim2_amended meta1 [("A", rawGoodA), ("B", rawBadB)] "B" rawBadB (by decide) (by decide)⟩

/-- C3: both parent-following walks stabilize once the fuel reaches the tree
size plus one — the visited-set guard bounds the number of parent-following
steps by the number of nodes, for every input map, including cyclic or
dangling parentId data. -/
theorem claim3_walks_terminate (m : StdMap) (std : Standard) (fuel : Nat)
    (hfuel : m.length + 1 ≤ fuel) :
    findRootAux m fuel std [] = findRoot m std
    ∧ (buildAncestorsAux m fuel std.parentId []).reverse = buildOrderedAncestors m std := by
  have hc : countFresh (keyList m) [] = m.length := by
    rw [countFresh_nil]; simp [keyList]
  constructor
  · exact findRootAux_congr m fuel (m.length + 1) std [] (by omega) (by omega)
  · rw [buildOrderedAncestors]
    exact congrArg List.reverse
      (buildAncestorsAux_congr m fuel (m.length + 1) std.parentId [] (by omega) (by omega))

/-- C3 witness: the walks on the two-node cyclic tree stabilize at any fuel
of at least the tree size plus one (here 10). -/
theorem claim3_witness :
    cycleAB.length + 1 ≤ 10
    ∧ (findRootAux cycleAB 10 stdA [] = findRoot cycleAB stdA
       ∧ (buildAncestorsAux cycleAB 10 stdA.parentId []).reverse
           = buildOrderedAncestors cycleAB stdA) :=
  ⟨by decide, claim3_walks_terminate cycleAB stdA 10 (by decide)⟩

/-- C7 counterexample: in the one-node tree whose node S names itself as its
parent, S's id appears in no OTHER node's parentId, yet the computed leaf
flag is false (the code subtracts the set of all parentIds, its own
included) — the claimed equivalence fails as stated. -/
theorem claim7_counterexample :
    ¬ (isLeaf selfTree stdSelf.id = true ↔
        (∀ e ∈ selfTree, e.1 ≠ stdSelf.id → e.2.parentId ≠ some stdSelf.id)) := by
  decide

/-- C7 amended: the computed leaf flag is true iff the node's id appears in
the map and in no node's parentId (its own included); and a leaf always has
an empty computed child list. -/
theorem claim7_amended (m : StdMap) (n : Standard) :
    (isLeaf m n.id = true ↔
      (n.id ∈ keyList m ∧ ∀ e ∈ m, e.2.parentId ≠ some n.id))
    ∧ (isLeaf m n.id = true → childrenOf m (some n.id) = []) := by
  have hiff : n.id ∉ parentIdList m ↔ ∀ e ∈ m, e.2.parentId ≠ some n.id := by
    simp only [parentIdList, List.mem_filterMap, not_exists]
    constructor
    · intro h e hem heq
      exact h e ⟨hem, heq⟩
    · intro h e ⟨hem, heq⟩
      exact h e hem heq
  constructor
  · simp only [isLeaf, Bool.and_eq_true, decide_eq_true_eq]
    rw [hiff]
  · intro hl
    have hnp : ∀ e ∈ m, e.2.parentId ≠ some n.id := by
      have := (by simpa only [isLeaf, Bool.and_eq_true, decide_eq_true_eq] using hl :
        n.id ∈ keyList m ∧ n.id ∉ parentIdList m)
      exact hiff.mp this.2
    have hempty : childrenPairs m (some n.id) = [] := by
      simp only [childrenPairs, List.map_eq_nil_iff, List.filter_eq_nil_iff,
        decide_eq_true_eq]
      intro e hem
      exact hnp e hem
    simp [childrenOf, hempty]

/-- C7 witness: the amended theorem applied to the leaf C2 of the three-node
chain. -/
theorem claim7_witness :
    isLeaf chain3 stdC2.id = true ∧ childrenOf chain3 (some stdC2.id) = [] :=
  ⟨by decide, (claim7_amended chain3 stdC2).2 (by decide)⟩

theorem lookupStd_id_eq (m : StdMap)
    (hkeys : m.all (fun e => e.2.id == e.1) = true) (k : String) (s : Standard)
    (h : lookupStd m k = some s) : s.id = k := by
  induction m with
  | nil => simp [lookupStd] at h
  | cons e rest ih =>
      simp only [List.all_cons, Bool.and_eq_true, beq_iff_eq] at hkeys
      simp only [lookupStd] at h
      by_cases he : e.1 = k
      · rw [if_pos he] at h
        injection h with h'
        rw [← h', hkeys.1, he]
      · rw [if_neg he] at h
        exact ih hkeys.2 h

/-- The root walk lands exactly on the last id collected by the ancestor
walk (or stays at the start node when the walk collects nothing), at every
fuel level, for every visited set — provided every node of the map is stored
under its own id. -/
theorem findRootAux_getLast (m : StdMap)
    (hwk : ∀ k s, lookupStd m k = some s → s.id = k) :
    ∀ (fuel : Nat) (cur : Standard) (visited : List String),
      findRootAux m fuel cur visited =
        ((buildAncestorsAux m fuel cur.parentId visited).getLast?).getD cur.id := by
  intro fuel
  induction fuel with
  | zero => intro cur visited; simp [findRootAux, buildAncestorsAux]
  | succ f ih =>
      intro cur visited
      cases hp : cur.parentId with
      | none => simp [findRootAux, buildAncestorsAux, hp]
      | some pid =>
          by_cases hv : pid ∈ visited
          · simp [findRootAux, buildAncestorsAux, hp, hv]
          · cases hl : lookupStd m pid with
            | none => simp [findRootAux, buildAncestorsAux, hp, hv, hl]
            | some par =>
                have hid : par.id = pid := hwk pid par hl
                simp only [findRootAux, buildAncestorsAux, hp, hl, if_neg hv]
                rw [ih par (pid :: visited)]
                cases hrest : buildAncestorsAux m f par.parentId (pid :: visited) with
                | nil => simp [hid]
                | cons y ys =>
                    rw [List.getLast?_cons_cons]
                    obtain ⟨z, hz⟩ : ∃ z, (y :: ys).getLast? = some z := by
                      cases hzz : (y :: ys).getLast? with
                      | none => exact absurd (List.getLast?_eq_none_iff.mp hzz) (by simp)
                      | some z => exact ⟨z, rfl⟩
                    simp [hz]

/-- C4 counterexample: for a node whose parentId dangles to a missing id the
recomputed ancestor list is empty although the node is not a root, so
"ancestors empty iff root" fails as stated on arbitrary trees. -/
theorem claim4_counterexample :
    ¬ ((buildOrderedAncestors danglingTree stdDangling = [])
        ↔ stdDangling.parentId = none) := by
  decide

/-- C4 amended: on a map storing every node under its own id, a root's
recomputed ancestor list is empty; and for a non-root node whose immediate
parent id resolves in the map, the list is non-empty, its last element is
the node's parentId, and its first element is the id computed by the root
walk — even in the presence of cycles or dangling references further up. -/
theorem claim4_amended (m : StdMap) (std : Standard) (p : String)
    (hkeys : m.all (fun e => e.2.id == e.1) = true) :
    (std.parentId = none → buildOrderedAncestors m std = [])
    ∧ (std.parentId = some p → (lookupStd m p).isSome = true →
        (buildOrderedAncestors m std ≠ []
         ∧ (buildOrderedAncestors m std).getLast? = some p
         ∧ (buildOrderedAncestors m std).head? = some (findRoot m std))) := by
  have hwk : ∀ k s, lookupStd m k = some s → s.id = k := lookupStd_id_eq m hkeys
  constructor
  · intro hp
    simp [buildOrderedAncestors, buildAncestorsAux, hp]
  · intro hp hres
    obtain ⟨par, hl⟩ := Option.isSome_iff_exists.mp hres
    have walkEq : buildAncestorsAux m (m.length + 1) std.parentId [] =
        p :: buildAncestorsAux m m.length par.parentId [p] := by
      simp [buildAncestorsAux, hp, hl]
    have hne : buildOrderedAncestors m std ≠ [] := by
      simp [buildOrderedAncestors, walkEq]
    refine ⟨hne, ?_, ?_⟩
    · rw [buildOrderedAncestors, walkEq, List.getLast?_reverse]
      rfl
    · rw [buildOrderedAncestors, List.head?_reverse]
      have hcorr := findRootAux_getLast m hwk (m.length + 1) std []
      rw [walkEq] at hcorr ⊢
      obtain ⟨z, hz⟩ : ∃ z, (p :: buildAncestorsAux m m.length par.parentId [p]).getLast?
          = some z := by
        cases hzz : (p :: buildAncestorsAux m m.length par.parentId [p]).getLast? with
        | none => exact absurd (List.getLast?_eq_none_iff.mp hzz) (by simp)
        | some z => exact ⟨z, rfl⟩
      rw [hz]
      rw [findRoot, hcorr, hz]
      rfl

/-- C4 witness: the amended theorem applied to the leaf C2 of the three-node
chain, whose parent is C1. -/
theorem claim4_witness :
    (buildOrderedAncestors chain3 stdC2).getLast? = some "C1"
    ∧ (buildOrderedAncestors chain3 stdC2).head? = some (findRoot chain3 stdC2) :=
  ⟨((claim4_amended chain3 stdC2 "C1" (by decide)).2 (by decide) (by decide)).2.1,
   ((claim4_amended chain3 stdC2 "C1" (by decide)).2 (by decide) (by decide)).2.2⟩

theorem mem_lookupStd_of_nodup (m : StdMap) (hnd : (keyList m).Nodup)
    (k : String) (s : Standard) (hmem : (k, s) ∈ m) : lookupStd m k = some s := by
  induction m with
  | nil => cases hmem
  | cons e rest ih =>
      simp only [keyList, List.map_cons, List.nodup_cons] at hnd
      rcases List.mem_cons.mp hmem with heq | htl
      · rw [← heq]
        simp [lookupStd]
      · have hne : e.1 ≠ k := by
          intro h
          apply hnd.1
          rw [h]
          exact List.mem_map_of_mem Prod.fst htl
        simp only [lookupStd, if_neg hne]
        exact ih hnd.2 htl

theorem posOf_eq_of_mem_pairs (m : StdMap) (hnd : (keyList m).Nodup)
    (p : Option String) (pr : Int × String) (hpr : pr ∈ childrenPairs m p) :
    posOf m pr.2 = pr.1 := by
  simp only [childrenPairs, List.mem_map, List.mem_filter, decide_eq_true_eq] at hpr
  obtain ⟨e, ⟨hem, _⟩, hpr'⟩ := hpr
  have hlk : lookupStd m e.1 = some e.2 := mem_lookupStd_of_nodup m hnd e.1 e.2 hem
  rw [← hpr']
  simp [posOf, hlk]

theorem mem_childrenOf_iff (m : StdMap) (p : Option String) (x : String) :
    x ∈ childrenOf m p ↔ ∃ e ∈ m, e.1 = x ∧ e.2.parentId = p := by
  simp only [childrenOf, List.mem_map, List.mem_insertionSort, childrenPairs,
    List.mem_filter, decide_eq_true_eq]
  constructor
  · rintro ⟨pr, ⟨e, ⟨hem, hpar⟩, hpr⟩, hsnd⟩
    refine ⟨e, hem, ?_, hpar⟩
    rw [← hsnd, ← hpr]
  · rintro ⟨e, hem, hfst, hpar⟩
    exact ⟨(e.2.position, e.1), ⟨e, ⟨hem, hpar⟩, rfl⟩, hfst⟩

theorem filter_orderedInsert_eq (v : Int) (x : Int × String) (l : List (Int × String)) :
    (List.orderedInsert posLe x l).filter (fun e => decide (e.1 = v))
      = ((x :: l).filter (fun e => decide (e.1 = v))) := by
  induction l with
  | nil => rfl
  | cons y ys ih =>
      by_cases hxy : posLe x y
      · simp [List.orderedInsert, hxy]
      · have hyx : y.1 < x.1 := by
          simp only [posLe, not_le] at hxy
          exact hxy
        simp only [List.orderedInsert, if_neg hxy]
        by_cases hyv : y.1 = v
        · have hxv : ¬ (x.1 = v) := by omega
          simp [List.filter_cons, hyv, hxv, ih]
        · simp [List.filter_cons, hyv, ih]

theorem filter_insertionSort_eq (v : Int) (l : List (Int × String)) :
    (List.insertionSort posLe l).filter (fun e => decide (e.1 = v))
      = l.filter (fun e => decide (e.1 = v)) := by
  induction l with
  | nil => rfl
  | cons x xs ih =>
      rw [List.insertionSort, filter_orderedInsert_eq]
      simp [List.filter_cons, ih]

theorem pairwise_childrenOf (m : StdMap) (hnd : (keyList m).Nodup) (p : Option String) :
    List.Pairwise (fun a b => posOf m a ≤ posOf m b) (childrenOf m p) := by
  have hs : List.Pairwise posLe (List.insertionSort posLe (childrenPairs m p)) :=
    List.sorted_insertionSort posLe (childrenPairs m p)
  rw [childrenOf, List.pairwise_map]
  refine hs.imp_of_mem ?_
  intro a b ha hb hab
  have hamem := (List.mem_insertionSort posLe).mp ha
  have hbmem := (List.mem_insertionSort posLe).mp hb
  rw [posOf_eq_of_mem_pairs m hnd p a hamem, posOf_eq_of_mem_pairs m hnd p b hbmem]
  exact hab

/-- C5 counterexample: a node that names itself as its parent appears in its
own computed child list, refuting "childIds excludes the node itself" on
arbitrary maps. -/
theorem claim5_counterexample :
    stdSelf.id ∈ childrenOf selfTree (some stdSelf.id) := by
  decide

/-- C5 amended: on a map with unique keys, each storing its node under the
node's own id, a node that does not name itself as parent never appears in
its own child list; every child list is ordered by ascending position; ties
in position keep the original map iteration order (the sort leaves the
relative order of any fixed position value untouched); and the null parent
key groups exactly the root nodes. -/
theorem claim5_amended (m : StdMap) (n : Standard) (v : Int) (x : String)
    (hnd : (keyList m).Nodup)
    (hself : lookupStd m n.id = some n)
    (hnp : n.parentId ≠ some n.id) :
    n.id ∉ childrenOf m (some n.id)
    ∧ List.Pairwise (fun a b => posOf m a ≤ posOf m b) (childrenOf m (some n.id))
    ∧ (List.insertionSort posLe (childrenPairs m (some n.id))).filter
        (fun e => decide (e.1 = v))
        = (childrenPairs m (some n.id)).filter (fun e => decide (e.1 = v))
    ∧ (x ∈ childrenOf m none ↔ x ∈ rootNodeIds m) := by
  refine ⟨?_, pairwise_childrenOf m hnd (some n.id),
    filter_insertionSort_eq v (childrenPairs m (some n.id)), ?_⟩
  · intro hmem
    obtain ⟨e, hem, hfst, hpar⟩ := (mem_childrenOf_iff m (some n.id) n.id).mp hmem
    have hlk : lookupStd m e.1 = some e.2 := mem_lookupStd_of_nodup m hnd e.1 e.2 hem
    rw [hfst, hself] at hlk
    injection hlk with hlk'
    rw [← hlk'] at hpar
    exact hnp hpar
  · rw [mem_childrenOf_iff]
    simp only [rootNodeIds, List.mem_map, List.mem_filter, decide_eq_true_eq]
    constructor
    · rintro ⟨e, hem, hfst, hpar⟩
      exact ⟨e, ⟨hem, hpar⟩, hfst⟩
    · rintro ⟨e, ⟨hem, hpar⟩, hfst⟩
      exact ⟨e, hem, hfst, hpar⟩

/-- C5 witness: the amended theorem applied to the tree whose children sit in
the map at positions [300, 100, 200] under parent P. -/
theorem claim5_witness :
    ((keyList posTree).Nodup
      ∧ lookupStd posTree stdP.id = some stdP
      ∧ stdP.parentId ≠ some stdP.id)
    ∧ (stdP.id ∉ childrenOf posTree (some stdP.id)
       ∧ List.Pairwise (fun a b => posOf posTree a ≤ posOf posTree b)
           (childrenOf posTree (some stdP.id))
       ∧ (List.insertionSort posLe (childrenPairs posTree (some stdP.id))).filter
           (fun e => decide (e.1 = 100))
           = (childrenPairs posTree (some stdP.id)).filter (fun e => decide (e.1 = 100))
       ∧ (stdP.id ∈ childrenOf posTree none ↔ stdP.id ∈ rootNodeIds posTree)) :=
  ⟨⟨by decide, by decide, by decide⟩,
   claim5_amended posTree stdP 100 stdP.id (by decide) (by decide) (by decide)⟩

end CCMCP
